import Mathlib

/-!
Verification of the real-time voice conversation session manager of a
browser chat client, against its natural-language specification.

The development shallowly embeds the relevant source functions:

* the audio frame codec (`createBlob`, `decodeAudioData`) and the base64
  transport codec (`encode`, `decode`) from the audio helper section of the
  service module;
* the live-session message reducer (`onmessage`) and the resource cleanup
  path (`handleCleanup`) from the application component.

Audio samples are modelled as rationals; all multiplications and divisions
the source performs are by powers of two or exact integer ratios, for which
IEEE floating point is exact, so the rational model is faithful on the
values the claims quantify over.  Machine 16-bit storage is modelled as
integers with explicit wraparound modulo 2 to the 16th power.
-/

namespace VoiceSession

/-! ## Integer helpers: JavaScript numeric coercions -/

/-- Truncation toward zero, the `ToIntegerOrInfinity` step JavaScript
applies when a floating-point value is stored into an `Int16Array`.
Computed on the reduced fraction; `truncRat_eq` relates it to floor and
ceiling. -/
def truncRat (q : ℚ) : ℤ :=
  q.num.tdiv q.den

theorem truncRat_eq (q : ℚ) : truncRat q = if 0 ≤ q then ⌊q⌋ else ⌈q⌉ := by
  unfold truncRat
  rcases le_or_lt 0 q with h | h
  · rw [if_pos h, Rat.floor_def,
      Int.tdiv_eq_ediv (Rat.num_nonneg.mpr h) (Int.ofNat_nonneg q.den)]
  · rw [if_neg (not_le.mpr h)]
    have h1 : ⌈q⌉ = -⌊-q⌋ := by rw [Int.floor_neg]; omega
    have hnum : 0 ≤ -q.num := by
      have : ¬ 0 ≤ q.num := fun hc => not_le.mpr h (Rat.num_nonneg.mp hc)
      omega
    rw [h1, Rat.floor_def, Rat.num_neg_eq_neg_num, Rat.den_neg_eq_den,
      ← Int.tdiv_eq_ediv hnum (Int.ofNat_nonneg q.den), Int.neg_tdiv]
    omega

/-- Wraparound of an integer into the signed 16-bit range, the `ToInt16`
step of an `Int16Array` store. -/
def toInt16 (n : ℤ) : ℤ :=
  (n + 32768) % 65536 - 32768

/-- The unsigned 16-bit representation of a (signed-range) integer, as the
underlying byte storage holds it. -/
def toUint16 (v : ℤ) : ℕ :=
  (v % 65536).toNat

/-- Reinterpretation of an unsigned 16-bit value as signed, the read an
`Int16Array` view performs over raw bytes. -/
def toSigned16 (u : ℕ) : ℤ :=
  if u < 32768 then (u : ℤ) else (u : ℤ) - 65536

/-- Little-endian byte pair of a signed 16-bit integer, as an
`Int16Array`'s buffer exposes it to a `Uint8Array` view. -/
def int16le (v : ℤ) : List ℕ :=
  [toUint16 v % 256, toUint16 v / 256]

theorem toInt16_bounds (n : ℤ) : -32768 ≤ toInt16 n ∧ toInt16 n ≤ 32767 := by
  unfold toInt16
  omega

theorem toInt16_eq_self {n : ℤ} (h1 : -32768 ≤ n) (h2 : n ≤ 32767) :
    toInt16 n = n := by
  unfold toInt16
  omega

theorem toUint16_lt (v : ℤ) : toUint16 v < 65536 := by
  unfold toUint16
  omega

theorem toSigned16_toUint16 {v : ℤ} (h1 : -32768 ≤ v) (h2 : v ≤ 32767) :
    toSigned16 (toUint16 v % 256 + 256 * (toUint16 v / 256)) = v := by
  unfold toSigned16 toUint16
  split <;> omega

/-! ## Base64 transport codec (`encode` / `decode`)

The source encodes a byte array into a binary string and applies `btoa`,
and inverts with `atob`; this is standard base64 with `=` padding. -/

/-- The standard base64 alphabet used by `btoa` / `atob`. -/
def base64Alphabet : List Char :=
  "ABCDEFGHIJKLMNOPQRSTUVWXYZabcdefghijklmnopqrstuvwxyz0123456789+/".toList

/-- The character encoding a 6-bit group. -/
def b64Char (n : ℕ) : Char :=
  base64Alphabet.getD n 'A'

/-- The 6-bit group a base64 character denotes. -/
def b64Index (c : Char) : ℕ :=
  base64Alphabet.indexOf c

/-- `encode`: the transport encoder of the source (byte array to binary
string to `btoa`), modelled directly as base64 over byte lists. -/
def encode : List ℕ → List Char
  | [] => []
  | [a] => [b64Char (a / 4), b64Char (a % 4 * 16), '=', '=']
  | [a, b] => [b64Char (a / 4), b64Char (a % 4 * 16 + b / 16), b64Char (b % 16 * 4), '=']
  | a :: b :: c :: rest =>
      b64Char (a / 4) :: b64Char (a % 4 * 16 + b / 16) ::
      b64Char (b % 16 * 4 + c / 64) :: b64Char (c % 64) :: encode rest

/-- `decode`: the transport decoder of the source (`atob` then
`charCodeAt` into a byte array), modelled as base64 decoding. -/
def decode : List Char → List ℕ
  | c1 :: c2 :: c3 :: c4 :: rest =>
      let n1 := b64Index c1
      let n2 := b64Index c2
      if c3 = '=' then [n1 * 4 + n2 / 16]
      else
        let n3 := b64Index c3
        if c4 = '=' then [n1 * 4 + n2 / 16, n2 % 16 * 16 + n3 / 4]
        else
          (n1 * 4 + n2 / 16) :: (n2 % 16 * 16 + n3 / 4) ::
          (n3 % 4 * 64 + b64Index c4) :: decode rest
  | _ => []

theorem b64Index_b64Char : ∀ n, n < 64 → b64Index (b64Char n) = n := by decide

theorem b64Char_ne_pad : ∀ n, n < 64 → b64Char n ≠ '=' := by decide

theorem decode_encode_aux :
    ∀ bs : List ℕ, (∀ b ∈ bs, b < 256) → decode (encode bs) = bs
  | [], _ => rfl
  | [a], h => by
      have ha : a < 256 := h a (by simp)
      have h1 := b64Index_b64Char (a / 4) (by omega)
      have h2 := b64Index_b64Char (a % 4 * 16) (by omega)
      simp [encode, decode, h1, h2]
      omega
  | [a, b], h => by
      have ha : a < 256 := h a (by simp)
      have hb : b < 256 := h b (by simp)
      have h1 := b64Index_b64Char (a / 4) (by omega)
      have h2 := b64Index_b64Char (a % 4 * 16 + b / 16) (by omega)
      have h3 := b64Index_b64Char (b % 16 * 4) (by omega)
      have hne := b64Char_ne_pad (b % 16 * 4) (by omega)
      simp [encode, decode, h1, h2, h3, hne]
      omega
  | [a, b, c], h => by
      have ha : a < 256 := h a (by simp)
      have hb : b < 256 := h b (by simp)
      have hc : c < 256 := h c (by simp)
      have h1 := b64Index_b64Char (a / 4) (by omega)
      have h2 := b64Index_b64Char (a % 4 * 16 + b / 16) (by omega)
      have h3 := b64Index_b64Char (b % 16 * 4 + c / 64) (by omega)
      have h4 := b64Index_b64Char (c % 64) (by omega)
      have hne3 := b64Char_ne_pad (b % 16 * 4 + c / 64) (by omega)
      have hne4 := b64Char_ne_pad (c % 64) (by omega)
      simp [encode, decode, h1, h2, h3, h4, hne3, hne4]
      omega
  | a :: b :: c :: d :: rest, h => by
      have ha : a < 256 := h a (by simp)
      have hb : b < 256 := h b (by simp)
      have hc : c < 256 := h c (by simp)
      have h1 := b64Index_b64Char (a / 4) (by omega)
      have h2 := b64Index_b64Char (a % 4 * 16 + b / 16) (by omega)
      have h3 := b64Index_b64Char (b % 16 * 4 + c / 64) (by omega)
      have h4 := b64Index_b64Char (c % 64) (by omega)
      have hne3 := b64Char_ne_pad (b % 16 * 4 + c / 64) (by omega)
      have hne4 := b64Char_ne_pad (c % 64) (by omega)
      have ih := decode_encode_aux (d :: rest) (fun x hx => h x (by simp at hx ⊢; tauto))
      simp [encode, decode, h1, h2, h3, h4, hne3, hne4, ih]
      omega

/-! ## Capture-side frame encoder (`createBlob`)

The source writes `int16[i] = data[i] * 32768` into an `Int16Array` (ECMA
semantics: truncation toward zero, then wraparound into the signed 16-bit
range), exposes the buffer as bytes, and base64-encodes them.  The mime
tag is carried verbatim. -/

/-- The integer an `Int16Array` store of `s * 32768` produces. -/
def sampleToInt16 (s : ℚ) : ℤ :=
  toInt16 (truncRat (s * 32768))

/-- The little-endian PCM bytes `createBlob` packs before transport
encoding. -/
def pcmBytes : List ℚ → List ℕ
  | [] => []
  | s :: rest => int16le (sampleToInt16 s) ++ pcmBytes rest

/-- `createBlob`: the capture-side frame encoder of the source.  Returns
the transport-encoded data together with the declared mime type. -/
def createBlob (data : List ℚ) : List Char × String :=
  (encode (pcmBytes data), "audio/pcm;rate=16000")

/-- Clamping of a sample to the unit interval, as the specification's
words describe (the source performs no clamping). -/
def clampSample (s : ℚ) : ℚ :=
  max (-1) (min 1 s)

/-- Rounding half upward, `Math.round` style, as the specification's
word `round` denotes: the floor of the argument plus one half, computed
on the reduced fraction. -/
def specRound (q : ℚ) : ℤ :=
  (2 * q.num + q.den).ediv (2 * q.den)

/-- The sample map the specification claims for `encodeFrame`: clamp to
the unit interval, then round with scale factor 32767 for nonnegative
samples and 32768 for negative ones.  This definition follows the
specification's words and exists only to be compared against
`sampleToInt16`, which is translated from the source. -/
def specEncodeSample (s : ℚ) : ℤ :=
  if 0 ≤ clampSample s then specRound (clampSample s * 32767)
  else specRound (clampSample s * 32768)

/-- The frame encoder the specification describes, byte-packed like the
source's, for comparison with `pcmBytes`. -/
def specEncodeFrame : List ℚ → List ℕ
  | [] => []
  | s :: rest => int16le (specEncodeSample s) ++ specEncodeFrame rest

theorem sampleToInt16_bounds (s : ℚ) :
    -32768 ≤ sampleToInt16 s ∧ sampleToInt16 s ≤ 32767 :=
  toInt16_bounds _

theorem pcmBytes_lt_256 : ∀ data : List ℚ, ∀ b ∈ pcmBytes data, b < 256
  | s :: rest, b, hb => by
      have hu := toUint16_lt (sampleToInt16 s)
      simp [pcmBytes, int16le] at hb
      rcases hb with h | h | h
      · omega
      · omega
      · exact pcmBytes_lt_256 rest b h

theorem pcmBytes_length : ∀ data : List ℚ, (pcmBytes data).length = 2 * data.length
  | [] => rfl
  | s :: rest => by
      simp [pcmBytes, int16le, pcmBytes_length rest]
      omega

theorem pcmBytes_getD :
    ∀ (data : List ℚ) (i : ℕ), (h : i < data.length) →
      (pcmBytes data).getD (2 * i) 0
          = toUint16 (sampleToInt16 (data.get ⟨i, h⟩)) % 256 ∧
      (pcmBytes data).getD (2 * i + 1) 0
          = toUint16 (sampleToInt16 (data.get ⟨i, h⟩)) / 256
  | s :: rest, 0, _ => by simp [pcmBytes, int16le]
  | s :: rest, i + 1, h => by
      have ih := pcmBytes_getD rest i (Nat.lt_of_succ_lt_succ h)
      have e1 : 2 * (i + 1) = 2 * i + 1 + 1 := by omega
      rw [e1]
      simpa [pcmBytes, int16le] using ih

/-! ## Inbound audio decoder (`decodeAudioData`)

The source views the byte buffer as an `Int16Array` (throwing when the
byte length is odd), computes `frameCount = dataInt16.length /
numChannels`, and fills each channel with `dataInt16[i * numChannels +
channel] / 32768.0`.  The audio context and sample rate only set buffer
metadata and do not affect the samples, so they are not modelled. -/

/-- The signed 16-bit reads an `Int16Array` view performs over a
little-endian byte list, two bytes at a time. -/
def pairsToInts : List ℕ → List ℤ
  | lo :: hi :: rest => toSigned16 (lo + 256 * hi) :: pairsToInts rest
  | _ => []

/-- `decodeAudioData`: the inbound PCM decoder of the source.  `none`
models the exception the `Int16Array` constructor throws on a buffer of
odd byte length. -/
def decodeAudioData (data : List ℕ) (numChannels : ℕ) : Option (List (List ℚ)) :=
  if data.length % 2 ≠ 0 then none
  else
    let dataInt16 := pairsToInts data
    let frameCount := dataInt16.length / numChannels
    some ((List.range numChannels).map fun channel =>
      (List.range frameCount).map fun i =>
        ((dataInt16.getD (i * numChannels + channel) 0 : ℚ) / 32768))

theorem pairsToInts_length : ∀ bs : List ℕ, (pairsToInts bs).length = bs.length / 2
  | [] => rfl
  | [_] => by simp [pairsToInts]
  | _ :: _ :: rest => by
      simp [pairsToInts, pairsToInts_length rest]
      omega

theorem pairsToInts_getD :
    ∀ (bs : List ℕ) (j : ℕ), 2 * j + 1 < bs.length →
      (pairsToInts bs).getD j 0
        = toSigned16 (bs.getD (2 * j) 0 + 256 * bs.getD (2 * j + 1) 0)
  | lo :: hi :: rest, 0, _ => by simp [pairsToInts]
  | lo :: hi :: rest, j + 1, h => by
      have ih := pairsToInts_getD rest j (by simp at h; omega)
      have e1 : 2 * (j + 1) = 2 * j + 1 + 1 := by omega
      rw [e1]
      simpa [pairsToInts] using ih

theorem pairsToInts_pcmBytes :
    ∀ data : List ℚ, pairsToInts (pcmBytes data) = data.map sampleToInt16
  | [] => rfl
  | s :: rest => by
      have hb := sampleToInt16_bounds s
      have hs := toSigned16_toUint16 hb.1 hb.2
      simp [pcmBytes, int16le, pairsToInts, pairsToInts_pcmBytes rest]
      convert hs using 2

/-! ## Sample-level accuracy lemmas -/

theorem truncRat_close (q : ℚ) : |(truncRat q : ℚ) - q| ≤ 1 := by
  rw [truncRat_eq]
  rcases le_or_lt 0 q with h | h
  · rw [if_pos h, abs_le]
    have h1 := Int.floor_le q
    have h2 := Int.lt_floor_add_one q
    constructor <;> linarith
  · rw [if_neg (not_le.mpr h), abs_le]
    have h1 := Int.le_ceil q
    have h2 := Int.ceil_lt_add_one q
    constructor <;> linarith

theorem truncRat_bounds {s : ℚ} (h1 : -1 ≤ s) (h2 : s < 1) :
    -32768 ≤ truncRat (s * 32768) ∧ truncRat (s * 32768) ≤ 32767 := by
  have q1 : (-32768 : ℚ) ≤ s * 32768 := by linarith
  have q2 : s * 32768 < 32768 := by linarith
  rw [truncRat_eq]
  rcases le_or_lt 0 (s * 32768) with h | h
  · rw [if_pos h]
    have hf1 : (0 : ℤ) ≤ ⌊s * 32768⌋ := Int.floor_nonneg.mpr h
    have hf2 : ⌊s * 32768⌋ < 32768 := by
      rw [Int.floor_lt]
      push_cast
      linarith
    omega
  · rw [if_neg (not_le.mpr h)]
    have hc1 : (-32768 : ℤ) ≤ ⌈s * 32768⌉ := by
      have := Int.le_ceil (s * 32768)
      by_contra hcon
      push_neg at hcon
      have : ((⌈s * 32768⌉ : ℤ) : ℚ) < -32768 := by exact_mod_cast hcon
      linarith
    have hc2 : ⌈s * 32768⌉ ≤ 0 := Int.ceil_le.mpr (by push_cast; linarith)
    omega

theorem sampleToInt16_of_unit {s : ℚ} (h1 : -1 ≤ s) (h2 : s < 1) :
    sampleToInt16 s = truncRat (s * 32768) := by
  obtain ⟨b1, b2⟩ := truncRat_bounds h1 h2
  exact toInt16_eq_self b1 b2

theorem sample_roundtrip_close {s : ℚ} (h1 : -1 ≤ s) (h2 : s < 1) :
    |(sampleToInt16 s : ℚ) / 32768 - s| ≤ 1 / 32768 := by
  rw [sampleToInt16_of_unit h1 h2]
  have hc := abs_le.mp (truncRat_close (s * 32768))
  rw [abs_le]
  constructor <;> [linarith [hc.1]; linarith [hc.2]]

theorem range_one_eq : List.range 1 = [0] := rfl

/-- Evaluating `decodeAudioData` on capture-encoded PCM, mono. -/
theorem decodeAudioData_pcm (data : List ℚ) :
    decodeAudioData (pcmBytes data) 1
      = some [(List.range data.length).map
          (fun i => ((data.map sampleToInt16).getD i 0 : ℚ) / 32768)] := by
  have hev : ¬ (pcmBytes data).length % 2 ≠ 0 := by rw [pcmBytes_length]; omega
  unfold decodeAudioData
  rw [if_neg hev, pairsToInts_pcmBytes]
  simp [range_one_eq]

/-! ## Claim C1: the capture-side sample map -/

/-- C1 (counterexample): the claim — `createBlob` clamps each sample to
the unit interval and maps it to round of s times 32767 for nonnegative
s, round of s times 32768 for negative s — is false at the sample 1.
The source stores truncate of 1 times 32768, namely 32768, which wraps
to -32768 in the `Int16Array` (bytes 0, 128), while the claimed map
yields 32767 (bytes 255, 127). -/
theorem c1_counterexample : pcmBytes [(1 : ℚ)] ≠ specEncodeFrame [(1 : ℚ)] := by
  have hclamp : clampSample 1 = 1 := by decide
  simp only [pcmBytes, specEncodeFrame, sampleToInt16, specEncodeSample, hclamp, one_mul]
  decide

/-- C1 (amended): `createBlob` performs no clamping and uses the single
scale factor 32768 for both signs: each sample s is mapped to the
16-bit wraparound of the truncation toward zero of s times 32768, the
two bytes of each integer are packed little-endian, and the blob data is
their transport encoding; the function is deterministic and has no side
effects (it is a pure function of its input). -/
theorem c1_amended (data : List ℚ) :
    decode (createBlob data).1 = pcmBytes data ∧
    (pcmBytes data).length = 2 * data.length ∧
    ∀ i, (h : i < data.length) →
      (pcmBytes data).getD (2 * i) 0 + 256 * (pcmBytes data).getD (2 * i + 1) 0
        = toUint16 (toInt16 (truncRat (data.get ⟨i, h⟩ * 32768))) := by
  refine ⟨decode_encode_aux _ (pcmBytes_lt_256 data), pcmBytes_length data, ?_⟩
  intro i h
  obtain ⟨e1, e2⟩ := pcmBytes_getD data i h
  rw [e1, e2]
  have hrfl : toUint16 (toInt16 (truncRat (data.get ⟨i, h⟩ * 32768)))
      = toUint16 (sampleToInt16 (data.get ⟨i, h⟩)) := rfl
  rw [hrfl]
  have hu := toUint16_lt (sampleToInt16 (data.get ⟨i, h⟩))
  omega

/-- Witness for C1 at the singleton frame holding the sample 0. -/
theorem c1_witness :
    decode (createBlob [(0 : ℚ)]).1 = pcmBytes [(0 : ℚ)] ∧
    (pcmBytes [(0 : ℚ)]).getD (2 * 0) 0 + 256 * (pcmBytes [(0 : ℚ)]).getD (2 * 0 + 1) 0
      = toUint16 (toInt16 (truncRat ([(0 : ℚ)].get ⟨0, Nat.zero_lt_one⟩ * 32768))) :=
  ⟨(c1_amended [(0 : ℚ)]).1, (c1_amended [(0 : ℚ)]).2.2 0 Nat.zero_lt_one⟩

/-! ## Claim C2: codec round trip -/

/-- C2 (counterexample): the round-trip error bound fails on the sample
sequence consisting of the single sample 1, which lies in the closed
unit interval the claim quantifies over: the encoder wraps it to
-32768, the decoder returns -1, and the error 2 exceeds 1 over 32768. -/
theorem c2_counterexample :
    decodeAudioData (pcmBytes [(1 : ℚ)]) 1 = some [[(-1 : ℚ)]] ∧
    ¬ |(-1 : ℚ) - 1| ≤ 1 / 32768 := by
  constructor
  · have hb : pcmBytes [(1 : ℚ)] = [0, 128] := by
      simp only [pcmBytes, sampleToInt16, one_mul]
      decide
    rw [hb]
    simp [decodeAudioData, pairsToInts, toSigned16, range_one_eq]
  · intro hcon
    rw [abs_le] at hcon
    have := hcon.1
    linarith

/-- C2 (amended): for every sample sequence whose values lie in the
half-open interval from -1 inclusive to 1 exclusive, decoding the
capture-encoded frame at channel count 1 yields one channel of the same
length whose samples each differ from the original by at most 1 over
32768. -/
theorem c2_amended (data : List ℚ) (hs : ∀ s ∈ data, -1 ≤ s ∧ s < 1) :
    ∃ out : List ℚ,
      decodeAudioData (pcmBytes data) 1 = some [out] ∧
      out.length = data.length ∧
      ∀ i, (h : i < data.length) → |out.getD i 0 - data.get ⟨i, h⟩| ≤ 1 / 32768 := by
  refine ⟨_, decodeAudioData_pcm data, by simp, ?_⟩
  intro i h
  have hg1 : ((List.range data.length).map
      (fun j => ((data.map sampleToInt16).getD j 0 : ℚ) / 32768)).getD i 0
      = ((data.map sampleToInt16).getD i 0 : ℚ) / 32768 := by
    rw [List.getD_eq_getElem?_getD]
    simp [List.getElem?_map, List.getElem?_range h]
  have hg2 : (data.map sampleToInt16).getD i 0 = sampleToInt16 (data.get ⟨i, h⟩) := by
    rw [List.getD_eq_getElem?_getD]
    simp [List.getElem?_map, List.getElem?_eq_getElem h]
  rw [hg1, hg2]
  have hmem : data.get ⟨i, h⟩ ∈ data := List.get_mem data i h
  exact sample_roundtrip_close (hs _ hmem).1 (hs _ hmem).2

/-- Witness for C2 at the singleton frame holding the sample 0. -/
theorem c2_witness :
    ∃ out : List ℚ,
      decodeAudioData (pcmBytes [(0 : ℚ)]) 1 = some [out] ∧
      out.length = [(0 : ℚ)].length ∧
      ∀ i, (h : i < [(0 : ℚ)].length) →
        |out.getD i 0 - [(0 : ℚ)].get ⟨i, h⟩| ≤ 1 / 32768 :=
  c2_amended [(0 : ℚ)] (by decide)

/-! ## Claim C9: transport round trip -/

/-- C9: for every byte sequence, decoding the transport encoding
reproduces the original bytes exactly (byte values are below 256, as a
`Uint8Array` guarantees). -/
theorem c9_roundtrip (bytes : List ℕ) (h : ∀ b ∈ bytes, b < 256) :
    decode (encode bytes) = bytes :=
  decode_encode_aux bytes h

/-- Witness for C9 on a four-byte sequence exercising padding-free
encoding plus a padded tail. -/
theorem c9_witness : decode (encode [0, 100, 255, 7]) = [0, 100, 255, 7] :=
  c9_roundtrip [0, 100, 255, 7] (by decide)

/-! ## Claim C10: partiality of the inbound decoder -/

/-- C10: the inbound decoder is partial at its public interface.  On a
byte sequence whose length is an even multiple of twice the channel
count it returns one list per channel, each holding byte length over 2
over the channel count frames, every sample being the corresponding
little-endian signed 16-bit integer divided by 32768; on any sequence of
odd byte length it fails (the `Int16Array` view cannot be constructed),
a precondition the specification never states. -/
theorem c10_partiality :
    (∀ (data : List ℕ) (numChannels k : ℕ), 0 < numChannels →
      data.length = 2 * numChannels * k →
      ∃ chans : List (List ℚ),
        decodeAudioData data numChannels = some chans ∧
        chans.length = numChannels ∧
        (∀ ch ∈ chans, ch.length = data.length / 2 / numChannels) ∧
        (∀ c, c < numChannels → ∀ i, i < k →
          (chans.getD c []).getD i 0
            = (toSigned16 (data.getD (2 * (i * numChannels + c)) 0
                + 256 * data.getD (2 * (i * numChannels + c) + 1) 0) : ℚ) / 32768)) ∧
    (∀ (data : List ℕ) (numChannels : ℕ), data.length % 2 = 1 →
      decodeAudioData data numChannels = none) := by
  constructor
  · intro data numChannels k hch hlen
    have hev : ¬ data.length % 2 ≠ 0 := by
      have : data.length % 2 = 0 := by
        rw [hlen, Nat.mul_assoc]
        exact Nat.mul_mod_right 2 _
      omega
    have hints : (pairsToInts data).length = numChannels * k := by
      rw [pairsToInts_length, hlen, Nat.mul_assoc,
        Nat.mul_div_cancel_left _ (by norm_num : 0 < 2)]
    have hfc : (pairsToInts data).length / numChannels = k := by
      rw [hints, Nat.mul_div_cancel_left _ hch]
    have hk : k = data.length / 2 / numChannels := by
      rw [hlen, Nat.mul_assoc, Nat.mul_div_cancel_left _ (by norm_num : 0 < 2),
        Nat.mul_div_cancel_left _ hch]
    refine ⟨_, by unfold decodeAudioData; rw [if_neg hev], ?_, ?_, ?_⟩
    · simp
    · intro ch hmem
      rw [List.mem_map] at hmem
      obtain ⟨c, _, hc⟩ := hmem
      rw [← hc, hfc, hk]
      simp
    · intro c hc i hi
      have hcg : ((List.range numChannels).map
          (fun channel => (List.range ((pairsToInts data).length / numChannels)).map
            (fun j => ((pairsToInts data).getD (j * numChannels + channel) 0 : ℚ) / 32768))).getD c []
          = (List.range ((pairsToInts data).length / numChannels)).map
            (fun j => ((pairsToInts data).getD (j * numChannels + c) 0 : ℚ) / 32768) := by
        rw [List.getD_eq_getElem?_getD]
        simp [List.getElem?_map, List.getElem?_range hc]
      rw [hcg, hfc, List.getD_eq_getElem?_getD]
      have hig : (List.range k)[i]? = some i := List.getElem?_range hi
      rw [List.getElem?_map, hig]
      have hj : i * numChannels + c < numChannels * k := by
        calc i * numChannels + c < i * numChannels + numChannels := by omega
          _ = (i + 1) * numChannels := by ring
          _ ≤ k * numChannels := Nat.mul_le_mul_right numChannels hi
          _ = numChannels * k := Nat.mul_comm k numChannels
      have hb : 2 * (i * numChannels + c) + 1 < data.length := by
        have h2 : data.length = 2 * (numChannels * k) := by rw [hlen, Nat.mul_assoc]
        rw [h2]
        omega
      simp only [Option.map_some', Option.getD_some]
      rw [pairsToInts_getD data (i * numChannels + c) hb]
  · intro data numChannels hodd
    unfold decodeAudioData
    rw [if_pos (by omega)]

/-- Witness for C10: a four-byte stereo frame decodes to two channels of
one frame each, and a three-byte input is rejected. -/
theorem c10_witness :
    (∃ chans : List (List ℚ),
      decodeAudioData [16, 39, 0, 128] 2 = some chans ∧
      chans.length = 2 ∧
      (∀ ch ∈ chans, ch.length = [16, 39, 0, 128].length / 2 / 2) ∧
      (∀ c, c < 2 → ∀ i, i < 1 →
        (chans.getD c []).getD i 0
          = (toSigned16 ([16, 39, 0, 128].getD (2 * (i * 2 + c)) 0
              + 256 * [16, 39, 0, 128].getD (2 * (i * 2 + c) + 1) 0) : ℚ) / 32768)) ∧
    decodeAudioData [1, 2, 3] 1 = none :=
  ⟨c10_partiality.1 [16, 39, 0, 128] 2 1 (by decide) (by decide),
   c10_partiality.2 [1, 2, 3] 1 (by decide)⟩

/-! ## Live-session event reducer (`onmessage`)

The source's `onmessage` callback reads optional fields of one server
message in a fixed order: append the input transcription chunk, append
the output transcription chunk, flush on turn completion, schedule an
inbound audio chunk (guarded by a non-empty payload and a live output
context reference), and finally handle an interruption by stopping and
clearing all in-flight sources and resetting the cursor.  The model adds
three history fields (emitted messages, scheduled chunks, stopped
sources) that record the calls the handler makes on its collaborators. -/

/-- Conversation message senders, from the source's sender enum. -/
inductive MessageSender where
  | user
  | model
  | system
  deriving DecidableEq

/-- One live server message: optional transcription chunks, a
turn-completion flag, an optional inbound audio payload
(transport-decoded bytes), and an interruption flag.  A single message
may carry several of these at once. -/
structure LiveServerMessage where
  inputTranscription : Option String
  outputTranscription : Option String
  turnComplete : Bool
  audioData : Option (List ℕ)
  interrupted : Bool
  deriving DecidableEq

/-- The state `onmessage` reads and mutates, plus history fields. -/
structure ReducerState where
  currentInputTranscription : String
  currentOutputTranscription : String
  nextStartTime : ℚ
  audioSources : List ℕ
  nextSourceId : ℕ
  outputCtxAlive : Bool
  messages : List (MessageSender × String)
  scheduled : List (ℚ × ℚ)
  stoppedLog : List ℕ
  deriving DecidableEq

/-- Duration in seconds of a decoded inbound chunk: its frame count
(half the byte count, mono) over the fixed 24 kHz output rate. -/
def chunkDuration (bytes : List ℕ) : ℚ :=
  ((bytes.length / 2 : ℕ) : ℚ) / 24000

/-- Appending an input transcription chunk, when present. -/
def applyInputTranscription (s : ReducerState) (m : LiveServerMessage) : ReducerState :=
  match m.inputTranscription with
  | some t => { s with currentInputTranscription := s.currentInputTranscription ++ t }
  | none => s

/-- Appending an output transcription chunk, when present. -/
def applyOutputTranscription (s : ReducerState) (m : LiveServerMessage) : ReducerState :=
  match m.outputTranscription with
  | some t => { s with currentOutputTranscription := s.currentOutputTranscription ++ t }
  | none => s

/-- On turn completion: emit a user message if the input buffer is
non-empty, a model message if the output buffer is non-empty, then
clear both buffers. -/
def applyTurnComplete (s : ReducerState) (m : LiveServerMessage) : ReducerState :=
  if m.turnComplete then
    { s with
      messages := s.messages
        ++ (if s.currentInputTranscription ≠ "" then
              [(MessageSender.user, s.currentInputTranscription)] else [])
        ++ (if s.currentOutputTranscription ≠ "" then
              [(MessageSender.model, s.currentOutputTranscription)] else []),
      currentInputTranscription := "",
      currentOutputTranscription := "" }
  else s

/-- Scheduling an inbound audio chunk: guarded by a non-empty payload
and a live output context, the cursor is first raised to the current
output clock time, the chunk is scheduled at the resulting cursor, a
fresh source joins the active set, and the cursor advances by the
chunk's duration immediately. -/
def applyAudio (s : ReducerState) (m : LiveServerMessage) (now : ℚ) : ReducerState :=
  match m.audioData with
  | some bytes =>
      if bytes ≠ [] ∧ s.outputCtxAlive = true then
        { s with
          nextStartTime := max s.nextStartTime now + chunkDuration bytes,
          audioSources := s.audioSources ++ [s.nextSourceId],
          nextSourceId := s.nextSourceId + 1,
          scheduled := s.scheduled ++ [(max s.nextStartTime now, chunkDuration bytes)] }
      else s
  | none => s

/-- On interruption: stop every in-flight source, clear the active set,
reset the cursor to zero.  The transcript buffers are not touched. -/
def applyInterrupted (s : ReducerState) (m : LiveServerMessage) : ReducerState :=
  if m.interrupted then
    { s with
      audioSources := [],
      nextStartTime := 0,
      stoppedLog := s.stoppedLog ++ s.audioSources }
  else s

/-- `onmessage`: the live-session event reducer, processing the fields
of one message in the source's order.  `now` is the output clock time at
the moment the audio branch runs. -/
def onmessage (s : ReducerState) (message : LiveServerMessage) (now : ℚ) : ReducerState :=
  applyInterrupted
    (applyAudio
      (applyTurnComplete
        (applyOutputTranscription (applyInputTranscription s message) message) message)
      message now) message

/-- A message carrying only an input transcription chunk. -/
def inputMsg (t : String) : LiveServerMessage := ⟨some t, none, false, none, false⟩

/-- A message carrying only an output transcription chunk. -/
def outputMsg (t : String) : LiveServerMessage := ⟨none, some t, false, none, false⟩

/-- A message carrying only the turn-completion flag. -/
def turnCompleteMsg : LiveServerMessage := ⟨none, none, true, none, false⟩

/-- A message carrying only an audio payload. -/
def audioMsg (bytes : List ℕ) : LiveServerMessage := ⟨none, none, false, some bytes, false⟩

/-- A message carrying only the interruption flag. -/
def interruptedMsg : LiveServerMessage := ⟨none, none, false, none, true⟩

/-- The reducer state at session start. -/
def initState (alive : Bool) : ReducerState :=
  ⟨"", "", 0, [], 0, alive, [], [], []⟩

/-- Folding the handler over a sequence of timed messages. -/
def runMessages (s : ReducerState) (ms : List (LiveServerMessage × ℚ)) : ReducerState :=
  ms.foldl (fun st p => onmessage st p.1 p.2) s

/-- Adjacent-pair contiguity of the scheduled-chunk history: each entry
starts no earlier than the previous entry's start plus its duration. -/
def chainB : List (ℚ × ℚ) → Bool
  | a :: b :: rest => decide (a.1 + a.2 ≤ b.1) && chainB (b :: rest)
  | _ => true

/-- The cursor dominates the last scheduled entry. -/
def lastOKb (s : ReducerState) : Bool :=
  match s.scheduled.getLast? with
  | some a => decide (a.1 + a.2 ≤ s.nextStartTime)
  | none => true

/-- The scheduling invariant: contiguous history and dominating cursor. -/
def invB (s : ReducerState) : Bool :=
  chainB s.scheduled && lastOKb s

theorem chainB_concat : ∀ (l : List (ℚ × ℚ)) (x : ℚ × ℚ),
    chainB l = true →
    (∀ a, l.getLast? = some a → a.1 + a.2 ≤ x.1) →
    chainB (l ++ [x]) = true
  | [], _, _, _ => by simp [chainB]
  | [a], x, _, hx => by
      simp [chainB]
      exact hx a rfl
  | a :: b :: rest, x, hl, hx => by
      have hl12 : (decide (a.1 + a.2 ≤ b.1) && chainB (b :: rest)) = true := hl
      rw [Bool.and_eq_true] at hl12
      have ih := chainB_concat (b :: rest) x hl12.2
        (fun y hy => hx y (by rw [List.getLast?_cons_cons]; exact hy))
      show (decide (a.1 + a.2 ≤ b.1) && chainB ((b :: rest) ++ [x])) = true
      rw [Bool.and_eq_true]
      exact ⟨hl12.1, ih⟩

theorem applyInputTranscription_playback (s : ReducerState) (m : LiveServerMessage) :
    (applyInputTranscription s m).scheduled = s.scheduled ∧
    (applyInputTranscription s m).nextStartTime = s.nextStartTime := by
  unfold applyInputTranscription
  cases m.inputTranscription <;> simp

theorem applyOutputTranscription_playback (s : ReducerState) (m : LiveServerMessage) :
    (applyOutputTranscription s m).scheduled = s.scheduled ∧
    (applyOutputTranscription s m).nextStartTime = s.nextStartTime := by
  unfold applyOutputTranscription
  cases m.outputTranscription <;> simp

theorem applyTurnComplete_playback (s : ReducerState) (m : LiveServerMessage) :
    (applyTurnComplete s m).scheduled = s.scheduled ∧
    (applyTurnComplete s m).nextStartTime = s.nextStartTime := by
  unfold applyTurnComplete
  split <;> simp

theorem invB_eq_of (s s' : ReducerState) (hs : s'.scheduled = s.scheduled)
    (hn : s'.nextStartTime = s.nextStartTime) : invB s' = invB s := by
  unfold invB lastOKb
  rw [hs, hn]

theorem applyAudio_invB (s : ReducerState) (m : LiveServerMessage) (now : ℚ)
    (h : invB s = true) : invB (applyAudio s m now) = true := by
  cases hm : m.audioData with
  | none => simpa only [applyAudio, hm] using h
  | some bytes =>
      by_cases hcond : bytes ≠ [] ∧ s.outputCtxAlive = true
      · simp only [applyAudio, hm]
        rw [if_pos hcond]
        unfold invB lastOKb at h ⊢
        rw [Bool.and_eq_true] at h
        obtain ⟨h1, h2⟩ := h
        rw [Bool.and_eq_true]
        constructor
        · apply chainB_concat s.scheduled _ h1
          intro a ha
          rw [ha] at h2
          have hle : a.1 + a.2 ≤ s.nextStartTime := of_decide_eq_true h2
          calc a.1 + a.2 ≤ s.nextStartTime := hle
            _ ≤ max s.nextStartTime now := le_max_left _ _
        · rw [List.getLast?_concat]
          simp
      · simp only [applyAudio, hm]
        rw [if_neg hcond]
        exact h

theorem applyInterrupted_not (s : ReducerState) (m : LiveServerMessage)
    (h : m.interrupted = false) : applyInterrupted s m = s := by
  unfold applyInterrupted
  rw [h]
  simp

theorem onmessage_invB (s : ReducerState) (m : LiveServerMessage) (now : ℚ)
    (hint : m.interrupted = false) (h : invB s = true) :
    invB (onmessage s m now) = true := by
  unfold onmessage
  rw [applyInterrupted_not _ _ hint]
  apply applyAudio_invB
  have e1 := applyInputTranscription_playback s m
  have e2 := applyOutputTranscription_playback (applyInputTranscription s m) m
  have e3 := applyTurnComplete_playback
    (applyOutputTranscription (applyInputTranscription s m) m) m
  rw [invB_eq_of s _ (by rw [e3.1, e2.1, e1.1]) (by rw [e3.2, e2.2, e1.2])]
  exact h

theorem runMessages_invB :
    ∀ (ms : List (LiveServerMessage × ℚ)) (s : ReducerState),
    (∀ p ∈ ms, p.1.interrupted = false) → invB s = true →
    invB (runMessages s ms) = true
  | [], _, _, h => h
  | p :: rest, s, hm, h =>
      runMessages_invB rest (onmessage s p.1 p.2)
        (fun q hq => hm q (List.mem_cons_of_mem _ hq))
        (onmessage_invB s p.1 p.2 (hm p (List.mem_cons_self _ _)) h)

/-! ## Claim C3: interruption and the transcript buffer -/

/-- C3 (counterexample): after an input chunk followed by an
interruption, no user message has been emitted — but the input
transcript buffer still holds the chunk; the interrupted branch of the
source clears only the playback state, never the transcript buffers, so
the claim that the buffer is left empty is false. -/
theorem c3_counterexample :
    (runMessages (initState true) [(inputMsg "partial", 0), (interruptedMsg, 0)]).messages
        = [] ∧
    (runMessages (initState true)
        [(inputMsg "partial", 0), (interruptedMsg, 0)]).currentInputTranscription
        = "partial" ∧
    "partial" ≠ "" := by
  refine ⟨?_, ?_, ?_⟩ <;> decide

/-- C3 (amended): handling an interruption emits no message (in
particular no user message) and leaves the input transcript buffer
unchanged — it is not cleared; the accumulated partial transcript
survives the interruption and would be flushed by a later turn
completion. -/
theorem c3_amended (s : ReducerState) (t : ℚ) :
    (onmessage s interruptedMsg t).messages = s.messages ∧
    (onmessage s interruptedMsg t).currentInputTranscription
        = s.currentInputTranscription :=
  ⟨rfl, rfl⟩

/-! ## Claim C4: cursor monotonicity -/

/-- C4: scheduling an audio chunk starts it at the maximum of the cursor
and the current output clock time, advances the cursor by the chunk's
duration immediately, and adds one fresh source to the active set; and
over any message sequence without an interruption, from any state
satisfying the scheduling invariant, the recorded start times of
successive chunks are contiguous — each at least the previous start plus
the previous duration. -/
theorem c4_cursor_monotone :
    (∀ (s : ReducerState) (bytes : List ℕ) (t : ℚ),
      s.outputCtxAlive = true → bytes ≠ [] →
      (onmessage s (audioMsg bytes) t).scheduled
          = s.scheduled ++ [(max s.nextStartTime t, chunkDuration bytes)] ∧
      (onmessage s (audioMsg bytes) t).nextStartTime
          = max s.nextStartTime t + chunkDuration bytes ∧
      (onmessage s (audioMsg bytes) t).audioSources
          = s.audioSources ++ [s.nextSourceId]) ∧
    (∀ (s : ReducerState) (ms : List (LiveServerMessage × ℚ)),
      (∀ p ∈ ms, p.1.interrupted = false) → invB s = true →
      chainB ((runMessages s ms).scheduled) = true) := by
  constructor
  · intro s bytes t halive hbytes
    have hcond : bytes ≠ [] ∧ s.outputCtxAlive = true := ⟨hbytes, halive⟩
    have he : onmessage s (audioMsg bytes) t
        = { s with
            nextStartTime := max s.nextStartTime t + chunkDuration bytes,
            audioSources := s.audioSources ++ [s.nextSourceId],
            nextSourceId := s.nextSourceId + 1,
            scheduled := s.scheduled ++ [(max s.nextStartTime t, chunkDuration bytes)] } := by
      show applyAudio s (audioMsg bytes) t = _
      simp only [applyAudio, audioMsg]
      rw [if_pos hcond]
    rw [he]
    exact ⟨rfl, rfl, rfl⟩
  · intro s ms hm h
    have hrun := runMessages_invB ms s hm h
    unfold invB at hrun
    rw [Bool.and_eq_true] at hrun
    exact hrun.1

/-- Witness for C4: a first chunk scheduled from the initial state, and
a contiguous two-chunk run. -/
theorem c4_witness :
    ((onmessage (initState true) (audioMsg [0, 0]) 0).scheduled
        = (initState true).scheduled
          ++ [(max (initState true).nextStartTime 0, chunkDuration [0, 0])] ∧
      (onmessage (initState true) (audioMsg [0, 0]) 0).nextStartTime
        = max (initState true).nextStartTime 0 + chunkDuration [0, 0] ∧
      (onmessage (initState true) (audioMsg [0, 0]) 0).audioSources
        = (initState true).audioSources ++ [(initState true).nextSourceId]) ∧
    chainB ((runMessages (initState true)
        [(audioMsg [0, 0], 0), (audioMsg [0, 1, 2, 3], 0)]).scheduled) = true :=
  ⟨c4_cursor_monotone.1 (initState true) [0, 0] 0 rfl (by decide),
   c4_cursor_monotone.2 (initState true) [(audioMsg [0, 0], 0), (audioMsg [0, 1, 2, 3], 0)]
     (by decide) (by decide)⟩

/-! ## Claim C5: interrupt clears the playback state -/

/-- C5: handling an interruption stops every unit of the active set
(recorded in the stop log), leaves the active set empty, and resets the
cursor to zero, from every state — including the state with an empty
active set, where it is a no-op on the set and raises no error (the
handler is total); nothing else in the state changes. -/
theorem c5_interrupt_clears (s : ReducerState) (t : ℚ) :
    onmessage s interruptedMsg t
      = { s with
          audioSources := [],
          nextStartTime := 0,
          stoppedLog := s.stoppedLog ++ s.audioSources } :=
  rfl

/-! ## Claim C6: turn-completion flush -/

/-- C6: from empty buffers, the chunks of the well-known greeting
followed by a turn completion emit exactly one user message holding
their concatenation and no model message, leaving both buffers empty;
and in general a turn completion emits a user message exactly when the
input buffer is non-empty and a model message exactly when the output
buffer is non-empty, then clears both buffers. -/
theorem c6_turn_flush :
    ((runMessages (initState true)
        [(inputMsg "Hello ", 0), (inputMsg "world", 0), (turnCompleteMsg, 0)]).messages
        = [(MessageSender.user, "Hello world")] ∧
      (runMessages (initState true)
        [(inputMsg "Hello ", 0), (inputMsg "world", 0),
          (turnCompleteMsg, 0)]).currentInputTranscription = "" ∧
      (runMessages (initState true)
        [(inputMsg "Hello ", 0), (inputMsg "world", 0),
          (turnCompleteMsg, 0)]).currentOutputTranscription = "") ∧
    ∀ (s : ReducerState) (t : ℚ),
      (onmessage s turnCompleteMsg t).messages
        = s.messages
          ++ (if s.currentInputTranscription ≠ "" then
                [(MessageSender.user, s.currentInputTranscription)] else [])
          ++ (if s.currentOutputTranscription ≠ "" then
                [(MessageSender.model, s.currentOutputTranscription)] else []) ∧
      (onmessage s turnCompleteMsg t).currentInputTranscription = "" ∧
      (onmessage s turnCompleteMsg t).currentOutputTranscription = "" := by
  constructor
  · refine ⟨?_, ?_, ?_⟩ <;> decide
  · intro s t
    exact ⟨rfl, rfl, rfl⟩

/-! ## Claim C8: audio after teardown is ignored -/

/-- C8: once teardown has released the output audio context (its
reference is null), handling a message that carries only an audio
payload schedules nothing and mutates no state at all: the liveness
guard makes the scheduling branch unreachable, so the state is returned
unchanged. -/
theorem c8_ignore_after_teardown (s : ReducerState) (bytes : List ℕ) (t : ℚ)
    (h : s.outputCtxAlive = false) :
    onmessage s (audioMsg bytes) t = s := by
  have hcond : ¬ (bytes ≠ [] ∧ s.outputCtxAlive = true) := by
    rintro ⟨-, hc⟩
    rw [h] at hc
    cases hc
  show applyAudio s (audioMsg bytes) t = s
  simp only [applyAudio, audioMsg]
  rw [if_neg hcond]

/-- Witness for C8 at the post-teardown initial state. -/
theorem c8_witness : onmessage (initState false) (audioMsg [1, 2]) 5 = initState false :=
  c8_ignore_after_teardown (initState false) [1, 2] 5 rfl

/-! ## Session lifecycle cleanup (`handleCleanup`)

The source's cleanup stops all tracks of the media stream and nulls the
reference, closes each audio context unless it is already closed and
nulls the references, stops and clears all active playback sources,
resets the playback cursor, clears the session reference and the
recording flag.  The model keeps three history fields (stopped tracks,
closed contexts, stopped sources) so that the actions performed on the
released objects remain observable, and returns `none` if a close were
ever attempted on an already-closed context — the double-release fault
the guards prevent. -/

/-- The lifecycle state of an audio context. -/
inductive CtxState where
  | running
  | suspended
  | closed
  deriving DecidableEq

/-- An audio context, reduced to its lifecycle state. -/
structure AudioCtx where
  state : CtxState
  deriving DecidableEq

/-- A media stream track, reduced to its stopped flag. -/
structure MediaTrack where
  stopped : Bool
  deriving DecidableEq

/-- The controller resources the cleanup path touches, with history. -/
structure ControllerState where
  mediaStream : Option (List MediaTrack)
  inputAudioContext : Option AudioCtx
  outputAudioContext : Option AudioCtx
  audioSources : List ℕ
  nextStartTime : ℚ
  session : Option Unit
  isRecording : Bool
  stoppedTracks : List MediaTrack
  closedContexts : List AudioCtx
  stoppedSources : List ℕ
  deriving DecidableEq

/-- Closing an audio context; `none` models the rejection closing an
already-closed context raises. -/
def closeCtx (c : AudioCtx) : Option AudioCtx :=
  if c.state = CtxState.closed then none else some (AudioCtx.mk CtxState.closed)

/-- One guarded close of an optional context reference, accumulating the
log of closed contexts — the source's close call guarded by a non-null
reference whose state is not already closed. -/
def closeGuarded (ctx : Option AudioCtx) (acc : List AudioCtx) : Option (List AudioCtx) :=
  match ctx with
  | some c =>
      if c.state ≠ CtxState.closed then
        match closeCtx c with
        | some c2 => some (acc ++ [c2])
        | none => none
      else some acc
  | none => some acc

/-- `handleCleanup`: the resource release path of the controller. -/
def handleCleanup (s : ControllerState) : Option ControllerState := do
  let stoppedTracks2 :=
    match s.mediaStream with
    | some ts => s.stoppedTracks ++ ts.map (fun _ => MediaTrack.mk true)
    | none => s.stoppedTracks
  let closed1 ← closeGuarded s.inputAudioContext s.closedContexts
  let closed2 ← closeGuarded s.outputAudioContext closed1
  some { mediaStream := none, inputAudioContext := none, outputAudioContext := none,
         audioSources := [], nextStartTime := 0, session := none, isRecording := false,
         stoppedTracks := stoppedTracks2, closedContexts := closed2,
         stoppedSources := s.stoppedSources ++ s.audioSources }

theorem closeGuarded_some (ctx : Option AudioCtx) (acc : List AudioCtx) :
    ∃ l, closeGuarded ctx acc = some l := by
  unfold closeGuarded closeCtx
  cases ctx with
  | none => exact ⟨acc, rfl⟩
  | some c =>
      by_cases h : c.state = CtxState.closed
      · simp [h]
      · simp [h]

/-! ## Claim C7: cleanup idempotence -/

/-- C7: from every controller state, cleanup succeeds (raises no
double-release fault), leaves the media stream released and null, both
audio context references null, the active source set empty, the cursor
at zero, the session reference null and the recording flag false; and
invoking it again returns exactly the same state, so two invocations
produce the same observable state as one. -/
theorem c7_cleanup_idempotent (s : ControllerState) :
    ∃ r : ControllerState,
      handleCleanup s = some r ∧
      r.mediaStream = none ∧
      r.inputAudioContext = none ∧
      r.outputAudioContext = none ∧
      r.audioSources = [] ∧
      r.nextStartTime = 0 ∧
      r.session = none ∧
      r.isRecording = false ∧
      handleCleanup r = some r := by
  obtain ⟨l1, h1⟩ := closeGuarded_some s.inputAudioContext s.closedContexts
  obtain ⟨l2, h2⟩ := closeGuarded_some s.outputAudioContext l1
  refine ⟨{ mediaStream := none, inputAudioContext := none, outputAudioContext := none,
            audioSources := [], nextStartTime := 0, session := none, isRecording := false,
            stoppedTracks :=
              match s.mediaStream with
              | some ts => s.stoppedTracks ++ ts.map (fun _ => MediaTrack.mk true)
              | none => s.stoppedTracks,
            closedContexts := l2,
            stoppedSources := s.stoppedSources ++ s.audioSources },
          ?_, rfl, rfl, rfl, rfl, rfl, rfl, rfl, ?_⟩
  · simp only [handleCleanup, h1, h2, Option.bind_eq_bind, Option.some_bind]
  · simp [handleCleanup, closeGuarded]

end VoiceSession
